import Mathlib

/-!
Verification of the ccsds-mcp ingestion and search pipeline.

The Python source (`ingest.py`, `search.py`, `db.py`) is shallowly embedded:
strings become `List Char` processed by structurally recursive functions,
the SQLite store becomes an explicit `Store` record, transactions become
explicit state passing with injected step faults, and the external BM25
scorer is a function parameter.  Floating-point scores are modelled as `ℚ`.
-/

namespace Ccsds

/-! ## Character classes

`isST` is the character class of `SPACE_TAB_RE = re.compile(r"[ \t]+")`.
`pyIsSpace` is Python's `str`-mode whitespace class, used both by
`WHITESPACE_RE = re.compile(r"\s+")` and by `str.strip()`. -/

def isST (c : Char) : Bool := c == ' ' || c == '\t'

def pyIsSpace (c : Char) : Bool :=
  c == ' ' || c == '\t' || c == '\n' || c == '\r' || c == '\x0b' || c == '\x0c' ||
  c == '\x1c' || c == '\x1d' || c == '\x1e' || c == '\x1f' || c == '\x85' || c == '\xa0' ||
  c == ' ' || (decide (0x2000 ≤ c.toNat) && decide (c.toNat ≤ 0x200a)) ||
  c == ' ' || c == ' ' || c == ' ' || c == ' ' || c == '　'

/-- ASCII `[0-9A-Za-z]`, the complement of `TOKEN_SPLIT_RE = re.compile(r"[^0-9A-Za-z]+")`. -/
def isAsciiAlnum (c : Char) : Bool :=
  (decide ('0' ≤ c) && decide (c ≤ '9')) ||
  (decide ('A' ≤ c) && decide (c ≤ 'Z')) ||
  (decide ('a' ≤ c) && decide (c ≤ 'z'))

/-! ## `normalize_text` (ingest.py lines 55-59) -/

/-- `text.replace("\r\n", "\n")`: left-to-right non-overlapping replacement. -/
def replaceCRLF : List Char → List Char
  | a :: b :: rest =>
    if a = '\r' ∧ b = '\n' then '\n' :: replaceCRLF rest
    else a :: replaceCRLF (b :: rest)
  | l => l

/-- `text.replace("\r", "\n")`. -/
def replaceCR (l : List Char) : List Char :=
  l.map fun c => if c = '\r' then '\n' else c

/-- `SPACE_TAB_RE.sub(" ", text)`: each maximal run of spaces/tabs becomes one space.
The single space is emitted at the last character of the run. -/
def collapseST : List Char → List Char
  | a :: b :: rest =>
    if isST a && isST b then collapseST (b :: rest)
    else (if isST a then ' ' else a) :: collapseST (b :: rest)
  | [a] => if isST a then [' '] else [a]
  | [] => []

/-- `THREE_PLUS_NEWLINES_RE.sub("\n\n", text)`: each maximal run of three or
more newlines becomes exactly two (leading newlines of a run of ≥ 3 are dropped). -/
def collapseNL : List Char → List Char
  | a :: b :: c :: rest =>
    if a = '\n' ∧ b = '\n' ∧ c = '\n' then collapseNL (b :: c :: rest)
    else a :: collapseNL (b :: c :: rest)
  | l => l

/-- `WHITESPACE_RE.sub(" ", text)`: each maximal run of whitespace becomes one space. -/
def collapseWS : List Char → List Char
  | a :: b :: rest =>
    if pyIsSpace a && pyIsSpace b then collapseWS (b :: rest)
    else (if pyIsSpace a then ' ' else a) :: collapseWS (b :: rest)
  | [a] => if pyIsSpace a then [' '] else [a]
  | [] => []

/-- Python `str.lstrip()` on the embedded character list. -/
def pyLStrip (l : List Char) : List Char := l.dropWhile pyIsSpace

/-- Python `str.rstrip()` on the embedded character list. -/
def pyRStrip (l : List Char) : List Char := (l.reverse.dropWhile pyIsSpace).reverse

/-- Python `str.strip()`. -/
def pyStrip (l : List Char) : List Char := pyRStrip (pyLStrip l)

/-- `normalize_text` from ingest.py: replace `\r\n` then `\r` by `\n`,
collapse space/tab runs to one space, collapse three-or-more newlines to two,
then strip both ends. -/
def normalize_text (text : String) : String :=
  String.mk (pyStrip (collapseNL (collapseST (replaceCR (replaceCRLF text.data)))))

/-! ## `tokenize` (search.py line 35) -/

/-- `tokenize`: lowercase, split on runs of non-alphanumeric characters,
drop empty tokens. -/
def tokenize (text : String) : List String :=
  ((((text.data.map Char.toLower).splitOnP fun c => !isAsciiAlnum c).filter
    fun t => t ≠ []).map String.mk)

/-! ## `make_snippet` (search.py lines 39-48) -/

/-- `make_snippet`: raise on `max_chars < 1`; collapse whitespace and strip;
return unchanged if it fits; return `max_chars` dots if `max_chars ≤ 3`;
otherwise truncate to `max_chars - 3` characters, rstrip, append `"..."`. -/
def make_snippet (text : String) (max_chars : Int) : Except String String :=
  if max_chars < 1 then .error "max_chars must be at least 1"
  else
    let single_line := pyStrip (collapseWS text.data)
    if single_line.length ≤ max_chars.toNat then .ok (String.mk single_line)
    else if max_chars ≤ 3 then .ok (String.mk (List.replicate max_chars.toNat '.'))
    else .ok (String.mk (pyRStrip (single_line.take (max_chars.toNat - 3)) ++ ['.', '.', '.']))

deriving instance DecidableEq for Except

/-- The tokenizer example from the spec, as a sanity check of the embedding. -/
theorem tokenize_example : tokenize "Hello, World!  2024" = ["hello", "world", "2024"] := by
  decide

/-! ## The document store (db.py)

A row of the `documents` table, a row of the `pages` table, and the store
state.  `next_doc_id` models SQLite's `INTEGER PRIMARY KEY` auto-assignment
(`cursor.lastrowid`); list order models physical insertion order. -/

structure DocRow where
  doc_id : Nat
  path : String
  filename : String
  sha256 : String
  page_count : Nat
  ingested_at : String
deriving DecidableEq

structure PageRow where
  doc_id : Nat
  page_index : Nat
  text : String
deriving DecidableEq

structure Store where
  documents : List DocRow
  pages : List PageRow
  next_doc_id : Nat
deriving DecidableEq

/-- `DocumentRow` from ingest.py (the result of `load_existing_document`). -/
structure DocumentRow where
  doc_id : Nat
  sha256 : String
deriving DecidableEq

inductive IngestStatus where
  | ingested
  | updated
  | skipped
deriving DecidableEq

/-- `DocumentResult` from ingest.py. -/
structure DocumentResult where
  status : IngestStatus
  page_count : Nat
deriving DecidableEq

/-- `load_existing_document` (ingest.py lines 78-88): point lookup by path. -/
def load_existing_document (st : Store) (resolved_path : String) : Option DocumentRow :=
  match st.documents.find? fun d => d.path = resolved_path with
  | none => none
  | some d => some ⟨d.doc_id, d.sha256⟩

/-- An injected failure of one step of the write transaction: the document
insert/update statement, the insert of the page with a given index, or the
final commit.  `noFault` is a fully successful write. -/
inductive WriteFault where
  | noFault
  | docStep (msg : String)
  | pageStep (k : Nat) (msg : String)
  | commitStep (msg : String)
deriving DecidableEq

/-- The error with which `fault` fires during a write of `pages`, if any:
a page-insert fault fires only if its index is actually inserted. -/
def firesOn (fault : WriteFault) (pages : List String) : Option String :=
  match fault with
  | .noFault => none
  | .docStep e => some e
  | .pageStep k e => if k < pages.length then some e else none
  | .commitStep e => some e

/-- The first statement of the transaction (ingest.py lines 103-123): either
`INSERT INTO documents` (returning `lastrowid`), or `UPDATE documents` of all
mutable fields followed by `DELETE FROM pages` for that document. -/
def applyDocStep (st : Store) (resolved_path filename sha256 : String) (n : Nat)
    (existing : Option DocumentRow) (now : String) : Store × Nat :=
  match existing with
  | none =>
    ({ st with
        documents := st.documents ++ [⟨st.next_doc_id, resolved_path, filename, sha256, n, now⟩],
        next_doc_id := st.next_doc_id + 1 }, st.next_doc_id)
  | some ex =>
    ({ st with
        documents := st.documents.map fun d =>
          if d.doc_id = ex.doc_id then
            { d with filename := filename, sha256 := sha256, page_count := n, ingested_at := now }
          else d,
        pages := st.pages.filter fun p => p.doc_id ≠ ex.doc_id }, ex.doc_id)

/-- Whether `fault` fires at the insert of page index `i`. -/
def faultAtPage (fault : WriteFault) (i : Nat) : Option String :=
  match fault with
  | .pageStep k e => if k = i then some e else none
  | _ => none

/-- `conn.executemany("INSERT INTO pages ...", enumerate(pages))`
(ingest.py lines 125-128), one row at a time, stopping at an injected fault. -/
def insertPagesFrom (doc_id : Nat) (fault : WriteFault) (st : Store) :
    List (Nat × String) → Except String Store
  | [] => .ok st
  | (i, t) :: rest =>
    match faultAtPage fault i with
    | some e => .error e
    | none =>
      insertPagesFrom doc_id fault { st with pages := st.pages ++ [⟨doc_id, i, t⟩] } rest

/-- `write_document` (ingest.py lines 91-134): one `BEGIN`-ed transaction.
Any failure rolls back to the caller's state (the storage engine's atomic
transactions are an assumed collaborator) and re-raises the error. -/
def write_document (st : Store) (resolved_path filename sha256 : String) (pages : List String)
    (existing : Option DocumentRow) (now : String) (fault : WriteFault) :
    Store × Except String IngestStatus :=
  let status : IngestStatus := match existing with | none => .ingested | some _ => .updated
  let attempt : Except String Store :=
    match fault with
    | .docStep e => .error e
    | _ =>
      let s := applyDocStep st resolved_path filename sha256 pages.length existing now
      match insertPagesFrom s.2 fault s.1 pages.enum with
      | .error e => .error e
      | .ok st2 =>
        match fault with
        | .commitStep e => .error e
        | _ => .ok st2
  match attempt with
  | .ok st' => (st', .ok status)
  | .error e => (st, .error e)

/-! ## The ingestion orchestrator (ingest.py lines 137-193)

A discovered file is abstracted by what the external collaborators do with
it: reading its bytes either fails or yields a digest, extraction either
fails or yields the raw page texts, and the write transaction may carry an
injected fault. -/

structure FileSpec where
  path : String
  filename : String
  readResult : Except String String
  extractResult : Except String (List String)
  writeFault : WriteFault
  now : String
deriving DecidableEq

/-- `extract_pages` (ingest.py lines 62-71): each raw page text from the PDF
library is normalized; any library failure is re-raised as a `ValueError`. -/
def extract_pages (res : Except String (List String)) : Except String (List String) :=
  match res with
  | .ok raw => .ok (raw.map normalize_text)
  | .error e => .error ("Unable to read PDF: " ++ e)

/-- `ingest_document` (ingest.py lines 137-158): read, digest, look up by
path, skip when the digest is unchanged, else extract and write. -/
def ingest_document (st : Store) (f : FileSpec) : Store × Except String DocumentResult :=
  match f.readResult with
  | .error e => (st, .error e)
  | .ok sha256 =>
    let existing := load_existing_document st f.path
    if existing.any fun ex => ex.sha256 == sha256 then
      (st, .ok ⟨.skipped, 0⟩)
    else
      match extract_pages f.extractResult with
      | .error e => (st, .error e)
      | .ok pages =>
        let r := write_document st f.path f.filename sha256 pages existing f.now f.writeFault
        (r.1, r.2.map fun status => ⟨status, pages.length⟩)

structure IngestStats where
  discovered : Nat := 0
  ingested : Nat := 0
  updated : Nat := 0
  skipped : Nat := 0
  failed : Nat := 0
deriving DecidableEq

/-- The per-file counting of `run_ingest` (ingest.py lines 176-189): a caught
exception increments `failed`, otherwise the result's status is counted. -/
def tally (stats : IngestStats) (r : Except String DocumentResult) : IngestStats :=
  match r with
  | .error _ => { stats with failed := stats.failed + 1 }
  | .ok res =>
    match res.status with
    | .ingested => { stats with ingested := stats.ingested + 1 }
    | .updated => { stats with updated := stats.updated + 1 }
    | .skipped => { stats with skipped := stats.skipped + 1 }

/-- The main loop of `run_ingest`: process each file, catching its errors. -/
def run_files (st : Store) (stats : IngestStats) : List FileSpec → Store × IngestStats
  | [] => (st, stats)
  | f :: rest =>
    let r := ingest_document st f
    run_files r.1 (tally stats r.2) rest

/-- `run_ingest` (ingest.py lines 161-193) after discovery: `discovered` is
the number of discovered files, the loop tallies each file's outcome. -/
def run_ingest (files : List FileSpec) (st : Store) : Store × IngestStats :=
  run_files st { discovered := files.length } files

/-! ## Search (search.py)

Python's `list.sort(key=...)` orders by lexicographic comparison of key
tuples; `lexLe` is one lexicographic layer of that comparison. -/

structure SearchDocument where
  filename : String
  path : String
  page_index : Nat
  text : String
  tokens : List String
deriving DecidableEq

instance : Inhabited SearchDocument := ⟨⟨"", "", 0, "", []⟩⟩

structure SearchHit where
  rank_index : Nat
  filename : String
  path : String
  page_index : Nat
  score : ℚ
  snippet : String
deriving DecidableEq

/-- Lexicographic order on a pair: strictly smaller first component, or equal
first components and related second components. -/
def lexLe {α β : Type} [LT α] (le2 : β → β → Prop) (x y : α × β) : Prop :=
  x.1 < y.1 ∨ (x.1 = y.1 ∧ le2 x.2 y.2)

instance lexLeDec {α β : Type} [LinearOrder α] {le2 : β → β → Prop} [DecidableRel le2] :
    DecidableRel (@lexLe α β _ le2) := fun x y =>
  decidable_of_iff (x.1 < y.1 ∨ (x.1 = y.1 ∧ le2 x.2 y.2)) Iff.rfl

theorem lexLe_trans {α β : Type} [LinearOrder α] {le2 : β → β → Prop}
    (h2 : ∀ a b c, le2 a b → le2 b c → le2 a c) :
    ∀ x y z : α × β, lexLe le2 x y → lexLe le2 y z → lexLe le2 x z := by
  rintro ⟨x1, x2⟩ ⟨y1, y2⟩ ⟨z1, z2⟩ (h | ⟨rfl, h⟩) (h' | ⟨rfl, h'⟩)
  · exact Or.inl (lt_trans h h')
  · exact Or.inl h
  · exact Or.inl h'
  · exact Or.inr ⟨rfl, h2 _ _ _ h h'⟩

theorem lexLe_total {α β : Type} [LinearOrder α] {le2 : β → β → Prop}
    (h2 : ∀ a b, le2 a b ∨ le2 b a) :
    ∀ x y : α × β, lexLe le2 x y ∨ lexLe le2 y x := by
  intro ⟨x1, x2⟩ ⟨y1, y2⟩
  rcases lt_trichotomy x1 y1 with h | h | h
  · exact Or.inl (Or.inl h)
  · rcases h2 x2 y2 with h' | h'
    · exact Or.inl (Or.inr ⟨h, h'⟩)
    · exact Or.inr (Or.inr ⟨h.symm, h'⟩)
  · exact Or.inr (Or.inl h)

/-- The sort key of `scored_indices.sort(key=...)` (search.py lines 105-113):
`(-score, filename, page_index, path, original index)`.  Strings are compared
as their character lists, Python's code-point lexicographic order. -/
def keyOf (corpus : List SearchDocument) (x : Nat × ℚ) :
    ℚ × List Char × Nat × List Char × Nat :=
  (-x.2, (corpus.getD x.1 default).filename.data, (corpus.getD x.1 default).page_index,
   (corpus.getD x.1 default).path.data, x.1)

/-- Lexicographic comparison of two full sort keys. -/
def keyLe : (ℚ × List Char × Nat × List Char × Nat) →
    (ℚ × List Char × Nat × List Char × Nat) → Prop :=
  lexLe (lexLe (lexLe (lexLe fun a b : Nat => a ≤ b)))

instance keyLeDec : DecidableRel keyLe := fun x y =>
  inferInstanceAs (Decidable (lexLe _ x y))

/-- The total order in which scored pages are ranked. -/
def pageLe (corpus : List SearchDocument) (x y : Nat × ℚ) : Prop :=
  keyLe (keyOf corpus x) (keyOf corpus y)

instance pageLeDec (corpus : List SearchDocument) : DecidableRel (pageLe corpus) :=
  fun x y => keyLeDec (keyOf corpus x) (keyOf corpus y)

/-- The observable part of the ranking order on returned hits: score
descending, then filename, page index and path ascending (the final
load-order tiebreak is not part of a hit). -/
def hitLe (a b : SearchHit) : Prop :=
  lexLe (lexLe (lexLe fun a b : List Char => a ≤ b))
    (-a.score, a.filename.data, a.page_index, a.path.data)
    (-b.score, b.filename.data, b.page_index, b.path.data)

/-- `enumerate(scores)` filtered to positive scores and sorted by the key
(search.py lines 100-113). -/
def ranked_indices (corpus : List SearchDocument) (scores : List ℚ) : List (Nat × ℚ) :=
  (scores.enum.filter fun p => decide (0 < p.2)).mergeSort
    fun x y => decide (pageLe corpus x y)

/-- Construction of one `SearchHit` (search.py lines 116-127). -/
def mkHit (corpus : List SearchDocument) (rank_index : Nat) (x : Nat × ℚ) : SearchHit :=
  let d := corpus.getD x.1 default
  ⟨rank_index, d.filename, d.path, d.page_index, x.2,
    match make_snippet d.text 240 with | .ok s => s | .error _ => ""⟩

/-- `search_pages` (search.py lines 76-128) after the corpus is loaded.  The
BM25 model of the external `rank_bm25` library is the `scorer` parameter. -/
def search_pages (scorer : List (List String) → List String → List ℚ)
    (corpus : List SearchDocument) (query : String) (top_k : Int) :
    Except String (List SearchHit) :=
  if top_k ≤ 0 then .error "--top-k must be greater than 0"
  else if corpus.isEmpty then .ok []
  else
    let query_tokens := tokenize query
    if query_tokens.isEmpty then .ok []
    else
      let scores := scorer (corpus.map SearchDocument.tokens) query_tokens
      .ok (((ranked_indices corpus scores).take top_k.toNat).enum.map
        fun p => mkHit corpus (p.1 + 1) p.2)

/-! ## Store observations used by the claims -/

/-- The page rows inserted for a document: one per page text, indexed in order. -/
def newPages (doc_id : Nat) (pages : List String) : List PageRow :=
  pages.enum.map fun r => ⟨doc_id, r.1, r.2⟩

/-- The id under which `write_document` stores the document. -/
def writtenDocId (st : Store) (existing : Option DocumentRow) : Nat :=
  match existing with
  | none => st.next_doc_id
  | some ex => ex.doc_id

/-- All page rows of one document. -/
def pagesFor (st : Store) (did : Nat) : List PageRow :=
  st.pages.filter fun p => p.doc_id = did

/-- The document row with a given id. -/
def findDoc (st : Store) (did : Nat) : Option DocRow :=
  st.documents.find? fun d => d.doc_id = did

/-! ## Lemmas about the write transaction -/

theorem insertPagesFrom_ok_eq (doc_id : Nat) (fault : WriteFault) :
    ∀ (rows : List (Nat × String)) (st st' : Store),
      insertPagesFrom doc_id fault st rows = .ok st' →
      st' = { st with pages := st.pages ++ rows.map fun r => ⟨doc_id, r.1, r.2⟩ } := by
  intro rows
  induction rows with
  | nil =>
    intro st st' h
    simp only [insertPagesFrom, Except.ok.injEq] at h
    simp [← h]
  | cons r rest ih =>
    intro st st' h
    obtain ⟨i, t⟩ := r
    simp only [insertPagesFrom] at h
    split at h
    · exact absurd h (by simp)
    · have h2 := ih _ _ h
      subst h2
      simp

theorem insertPagesFrom_no_fire (doc_id : Nat) (fault : WriteFault) :
    ∀ (rows : List (Nat × String)) (st : Store),
      (∀ r ∈ rows, faultAtPage fault r.1 = none) →
      insertPagesFrom doc_id fault st rows =
        .ok { st with pages := st.pages ++ rows.map fun r => ⟨doc_id, r.1, r.2⟩ } := by
  intro rows
  induction rows with
  | nil => intro st _; simp [insertPagesFrom]
  | cons r rest ih =>
    intro st hf
    obtain ⟨i, t⟩ := r
    have hi : faultAtPage fault i = none := hf (i, t) (by simp)
    simp only [insertPagesFrom, hi]
    rw [ih _ fun r hr => hf r (by simp [hr])]
    simp

theorem insertPagesFrom_fires (doc_id k : Nat) (e : String) :
    ∀ (rows : List (Nat × String)) (st : Store), (∃ r ∈ rows, r.1 = k) →
      insertPagesFrom doc_id (.pageStep k e) st rows = .error e := by
  intro rows
  induction rows with
  | nil => intro st h; simp at h
  | cons r rest ih =>
    intro st h
    obtain ⟨i, t⟩ := r
    by_cases hik : k = i
    · subst hik
      simp [insertPagesFrom, faultAtPage]
    · have : ∃ r ∈ rest, r.1 = k := by
        rcases h with ⟨r', hr', hk⟩
        rcases List.mem_cons.mp hr' with rfl | hmem
        · exact absurd hk.symm hik
        · exact ⟨r', hmem, hk⟩
      simp only [insertPagesFrom, faultAtPage, if_neg hik]
      exact ih _ this

theorem write_document_ok_store
    (st : Store) (resolved_path filename sha256 : String) (pages : List String)
    (existing : Option DocumentRow) (now : String) (fault : WriteFault)
    (st' : Store) (status : IngestStatus)
    (h : write_document st resolved_path filename sha256 pages existing now fault =
      (st', .ok status)) :
    st' = { (applyDocStep st resolved_path filename sha256 pages.length existing now).1 with
            pages :=
              (applyDocStep st resolved_path filename sha256 pages.length existing now).1.pages ++
              newPages (applyDocStep st resolved_path filename sha256 pages.length existing now).2
                pages } := by
  cases fault with
  | docStep e => simp [write_document] at h
  | commitStep e =>
    simp only [write_document] at h
    rw [insertPagesFrom_no_fire _ _ _ _ (by intro r _; rfl)] at h
    simp at h
  | noFault =>
    simp only [write_document] at h
    rw [insertPagesFrom_no_fire _ _ _ _ (by intro r _; rfl)] at h
    simp only [Prod.mk.injEq, Except.ok.injEq] at h
    exact h.1.symm.trans (by rfl)
  | pageStep k e =>
    by_cases hk : k < pages.length
    · exfalso
      have hmem : ∃ r ∈ pages.enum, r.1 = k := by
        refine ⟨pages.enum.get ⟨k, by simpa using hk⟩, List.get_mem _ _ _, ?_⟩
        simp [List.getElem_enum]
      simp only [write_document] at h
      rw [insertPagesFrom_fires _ _ _ _ _ hmem] at h
      simp at h
    · simp only [write_document] at h
      rw [insertPagesFrom_no_fire _ _ _ _ ?_] at h
      · simp only [Prod.mk.injEq, Except.ok.injEq] at h
        exact h.1.symm.trans (by rfl)
      · intro r hr
        have hlt : r.1 < pages.length := List.fst_lt_of_mem_enum hr
        have hne : k ≠ r.1 := by omega
        simp [faultAtPage, hne]

/-- C1: if any step of a `write_document` transaction fails, the whole
transaction is rolled back — the store is exactly its pre-call state — and
the underlying error is re-raised to the caller rather than swallowed. -/
theorem write_document_rolls_back
    (st : Store) (resolved_path filename sha256 : String) (pages : List String)
    (existing : Option DocumentRow) (now : String) (fault : WriteFault) (e : String)
    (h : firesOn fault pages = some e) :
    write_document st resolved_path filename sha256 pages existing now fault =
      (st, .error e) := by
  cases fault with
  | noFault => simp [firesOn] at h
  | docStep msg =>
    simp only [firesOn, Option.some.injEq] at h
    subst h
    simp [write_document]
  | commitStep msg =>
    simp only [firesOn, Option.some.injEq] at h
    subst h
    simp only [write_document]
    rw [insertPagesFrom_no_fire _ _ _ _ (by intro r _; rfl)]
  | pageStep k msg =>
    simp only [firesOn] at h
    split at h
    · next hk =>
      simp only [Option.some.injEq] at h
      subst h
      have hmem : ∃ r ∈ pages.enum, r.1 = k := by
        refine ⟨pages.enum.get ⟨k, by simpa using hk⟩, List.get_mem _ _ _, ?_⟩
        simp [List.getElem_enum]
      simp only [write_document]
      rw [insertPagesFrom_fires _ _ _ _ _ hmem]
    · exact absurd h (by simp)

/-- C1 witness: a failing document-insert step on a concrete store. -/
theorem write_document_rolls_back_witness :
    write_document ⟨[], [], 0⟩ "/a.pdf" "a.pdf" "d0" ["p"] none "t0" (.docStep "boom") =
      (⟨[], [], 0⟩, .error "boom") :=
  write_document_rolls_back ⟨[], [], 0⟩ "/a.pdf" "a.pdf" "d0" ["p"] none "t0"
    (.docStep "boom") "boom" rfl

/-! ## Lemmas about the inserted page set -/

theorem newPages_filter_self (doc_id : Nat) (pages : List String) :
    (newPages doc_id pages).filter (fun p => p.doc_id = doc_id) = newPages doc_id pages := by
  rw [List.filter_eq_self]
  intro p hp
  simp only [newPages, List.mem_map] at hp
  obtain ⟨r, _, rfl⟩ := hp
  simp

theorem newPages_filter_other {did doc_id : Nat} (hne : did ≠ doc_id) (pages : List String) :
    (newPages doc_id pages).filter (fun p => p.doc_id = did) = [] := by
  rw [List.filter_eq_nil_iff]
  intro p hp
  simp only [newPages, List.mem_map] at hp
  obtain ⟨r, _, rfl⟩ := hp
  simp [hne.symm]

theorem newPages_map_index (doc_id : Nat) (pages : List String) :
    (newPages doc_id pages).map PageRow.page_index = List.range pages.length := by
  simp only [newPages, List.map_map]
  exact List.enum_map_fst pages

theorem newPages_map_text (doc_id : Nat) (pages : List String) :
    (newPages doc_id pages).map PageRow.text = pages := by
  simp only [newPages, List.map_map]
  exact List.enum_map_snd pages

theorem find?_doc_map (docs : List DocRow) (f : DocRow → DocRow)
    (hf : ∀ d, (f d).doc_id = d.doc_id) (did : Nat) :
    (docs.map f).find? (fun d => d.doc_id = did) =
      (docs.find? fun d => d.doc_id = did).map f := by
  induction docs with
  | nil => rfl
  | cons d rest ih =>
    simp only [List.map_cons, List.find?]
    by_cases hd : d.doc_id = did
    · simp [hf, hd]
    · simp [hf, hd, ih]

/-- C2: after every successful `write_document` (insert or update), the page
rows stored for the written document are exactly indices `0..len(pages)-1`
holding the new texts in order — no gaps, no stale pages — the document row's
`page_count` equals `len(pages)`, and no other document's row or pages are
affected. -/
theorem write_document_pages_exact
    (st : Store) (resolved_path filename sha256 : String) (pages : List String)
    (existing : Option DocumentRow) (now : String) (fault : WriteFault)
    (st' : Store) (status : IngestStatus)
    (hdocs : ∀ d ∈ st.documents, d.doc_id < st.next_doc_id)
    (hpages : ∀ p ∈ st.pages, p.doc_id < st.next_doc_id)
    (hex : ∀ ex, existing = some ex → (findDoc st ex.doc_id).isSome = true)
    (h : write_document st resolved_path filename sha256 pages existing now fault =
      (st', .ok status)) :
    (pagesFor st' (writtenDocId st existing)).map PageRow.page_index =
        List.range pages.length ∧
    (pagesFor st' (writtenDocId st existing)).map PageRow.text = pages ∧
    (findDoc st' (writtenDocId st existing)).map DocRow.page_count = some pages.length ∧
    ∀ did, did ≠ writtenDocId st existing →
      pagesFor st' did = pagesFor st did ∧ findDoc st' did = findDoc st did := by
  have hst' := write_document_ok_store st resolved_path filename sha256 pages existing now
    fault st' status h
  subst hst'
  cases existing with
  | none =>
    simp only [applyDocStep, writtenDocId]
    refine ⟨?_, ?_, ?_, ?_⟩
    · simp only [pagesFor, List.filter_append]
      rw [List.filter_eq_nil_iff.mpr fun p hp => by simp [Nat.ne_of_lt (hpages p hp)],
        newPages_filter_self]
      simp [newPages_map_index]
    · simp only [pagesFor, List.filter_append]
      rw [List.filter_eq_nil_iff.mpr fun p hp => by simp [Nat.ne_of_lt (hpages p hp)],
        newPages_filter_self]
      simp [newPages_map_text]
    · simp only [findDoc, List.find?_append]
      rw [List.find?_eq_none.mpr fun d hd => by simp [Nat.ne_of_lt (hdocs d hd)]]
      simp
    · intro did hne
      constructor
      · simp only [pagesFor, List.filter_append, newPages_filter_other hne]
        simp
      · simp only [findDoc, List.find?_append]
        have hnone : (List.find? (fun d => decide (d.doc_id = did))
            [(⟨st.next_doc_id, resolved_path, filename, sha256, pages.length, now⟩ :
              DocRow)]) = none := by
          apply List.find?_eq_none.mpr
          intro x hx
          simp only [List.mem_singleton] at hx
          subst hx
          simp
          exact fun hc => hne hc.symm
        rw [hnone]
        simp
  | some ex =>
    simp only [applyDocStep, writtenDocId]
    have hfind := hex ex rfl
    have hfpres : ∀ d : DocRow,
        ((fun d : DocRow => if d.doc_id = ex.doc_id then
          { d with filename := filename, sha256 := sha256,
                   page_count := pages.length, ingested_at := now } else d) d).doc_id =
          d.doc_id := by
      intro d
      by_cases hd : d.doc_id = ex.doc_id <;> simp [hd]
    refine ⟨?_, ?_, ?_, ?_⟩
    · simp only [pagesFor, List.filter_append, List.filter_filter]
      rw [List.filter_eq_nil_iff.mpr (by intro p _; simp), newPages_filter_self]
      simp [newPages_map_index]
    · simp only [pagesFor, List.filter_append, List.filter_filter]
      rw [List.filter_eq_nil_iff.mpr (by intro p _; simp), newPages_filter_self]
      simp [newPages_map_text]
    · simp only [findDoc]
      rw [find?_doc_map _ _ hfpres]
      obtain ⟨d0, hd0⟩ := Option.isSome_iff_exists.mp hfind
      unfold findDoc at hd0
      rw [hd0]
      have hid := List.find?_some hd0
      simp only [decide_eq_true_eq] at hid
      simp [hid]
    · intro did hne
      constructor
      · simp only [pagesFor, List.filter_append, List.filter_filter,
          newPages_filter_other hne]
        rw [List.append_nil]
        apply List.filter_congr
        intro p _
        by_cases hp : p.doc_id = did
        · have : p.doc_id ≠ ex.doc_id := by rw [hp]; exact hne
          simp [hp, this, hne]
        · simp [hp]
      · simp only [findDoc]
        rw [find?_doc_map _ _ hfpres]
        cases hffind : st.documents.find? fun d => d.doc_id = did with
        | none => simp
        | some d0 =>
          have hd0id := List.find?_some hffind
          simp only [decide_eq_true_eq] at hd0id
          have : d0.doc_id ≠ ex.doc_id := by rw [hd0id]; exact hne
          simp [this]

/-- C2 witness: a concrete successful insert of a two-page document. -/
theorem write_document_pages_exact_witness :
    (pagesFor ⟨[⟨0, "/a.pdf", "a.pdf", "d0", 2, "t0"⟩],
        [⟨0, 0, "p0"⟩, ⟨0, 1, "p1"⟩], 1⟩ 0).map PageRow.page_index = List.range 2 :=
  (write_document_pages_exact ⟨[], [], 0⟩ "/a.pdf" "a.pdf" "d0" ["p0", "p1"] none "t0"
    .noFault
    ⟨[⟨0, "/a.pdf", "a.pdf", "d0", 2, "t0"⟩], [⟨0, 0, "p0"⟩, ⟨0, 1, "p1"⟩], 1⟩
    .ingested (by simp) (by simp) (by intro ex h; cases h) (by decide)).1

/-! ## The skip path of `ingest_document` -/

/-- C3: when the stored digest for the file's resolved path equals the newly
computed digest, `ingest_document` reports `skipped`, leaves the store
entirely unchanged, and its result does not depend on the extraction result
or the write transaction at all — extraction is never invoked. -/
theorem ingest_document_skip
    (st : Store) (f : FileSpec) (sha256 : String) (ex : DocumentRow)
    (hr : f.readResult = .ok sha256)
    (hl : load_existing_document st f.path = some ex)
    (hs : ex.sha256 = sha256) :
    ∀ (er : Except String (List String)) (wf : WriteFault),
      ingest_document st { f with extractResult := er, writeFault := wf } =
        (st, .ok ⟨.skipped, 0⟩) := by
  intro er wf
  simp only [ingest_document]
  rw [hr, hl]
  simp [Option.any, hs]

/-- C3 witness: re-ingesting an unchanged concrete file. -/
theorem ingest_document_skip_witness :
    ingest_document ⟨[⟨0, "/a.pdf", "a.pdf", "d0", 1, "t0"⟩], [⟨0, 0, "p"⟩], 1⟩
      ⟨"/a.pdf", "a.pdf", .ok "d0", .error "extractor must not run", .noFault, "t1"⟩ =
      (⟨[⟨0, "/a.pdf", "a.pdf", "d0", 1, "t0"⟩], [⟨0, 0, "p"⟩], 1⟩, .ok ⟨.skipped, 0⟩) :=
  ingest_document_skip ⟨[⟨0, "/a.pdf", "a.pdf", "d0", 1, "t0"⟩], [⟨0, 0, "p"⟩], 1⟩
    ⟨"/a.pdf", "a.pdf", .ok "d0", .error "extractor must not run", .noFault, "t1"⟩
    "d0" ⟨0, "d0"⟩ rfl rfl rfl (.error "extractor must not run") .noFault

/-! ## Statistics of a run -/

/-- Componentwise sum of two statistics records. -/
def statsAdd (a b : IngestStats) : IngestStats :=
  ⟨a.discovered + b.discovered, a.ingested + b.ingested, a.updated + b.updated,
   a.skipped + b.skipped, a.failed + b.failed⟩

theorem statsAdd_zero (a : IngestStats) : statsAdd a ⟨0, 0, 0, 0, 0⟩ = a := by
  simp [statsAdd]

theorem tally_statsAdd (a b : IngestStats) (r : Except String DocumentResult) :
    tally (statsAdd a b) r = statsAdd a (tally b r) := by
  cases r with
  | error e => simp [tally, statsAdd, Nat.add_assoc]
  | ok res =>
    obtain ⟨status, pc⟩ := res
    cases status <;> simp [tally, statsAdd, Nat.add_assoc]

theorem tally_sum (stats : IngestStats) (r : Except String DocumentResult) :
    (tally stats r).discovered = stats.discovered ∧
    (tally stats r).ingested + (tally stats r).updated + (tally stats r).skipped +
      (tally stats r).failed =
    stats.ingested + stats.updated + stats.skipped + stats.failed + 1 := by
  cases r with
  | error e => simp [tally]; omega
  | ok res =>
    obtain ⟨status, pc⟩ := res
    cases status <;> (simp [tally]; omega)

theorem run_files_statsAdd (files : List FileSpec) :
    ∀ (st : Store) (a b : IngestStats),
      run_files st (statsAdd a b) files =
        ((run_files st b files).1, statsAdd a (run_files st b files).2) := by
  induction files with
  | nil => intro st a b; rfl
  | cons f rest ih =>
    intro st a b
    simp only [run_files, tally_statsAdd]
    exact ih _ _ _

/-- Any run decomposes as its store effect plus a statistics offset. -/
theorem run_files_eq (files : List FileSpec) (st : Store) (stats : IngestStats) :
    run_files st stats files =
      ((run_files st ⟨0, 0, 0, 0, 0⟩ files).1,
        statsAdd stats (run_files st ⟨0, 0, 0, 0, 0⟩ files).2) := by
  rw [← statsAdd_zero stats, run_files_statsAdd]
  simp [statsAdd_zero]

theorem run_files_sum (files : List FileSpec) :
    ∀ (st : Store) (stats : IngestStats),
      (run_files st stats files).2.discovered = stats.discovered ∧
      (run_files st stats files).2.ingested + (run_files st stats files).2.updated +
        (run_files st stats files).2.skipped + (run_files st stats files).2.failed =
      stats.ingested + stats.updated + stats.skipped + stats.failed + files.length := by
  induction files with
  | nil => intro st stats; simp [run_files]
  | cons f rest ih =>
    intro st stats
    simp only [run_files, List.length_cons]
    have h1 := ih (ingest_document st f).1 (tally stats (ingest_document st f).2)
    have h2 := tally_sum stats (ingest_document st f).2
    exact ⟨h1.1.trans h2.1, h1.2.trans (by omega)⟩

/-- C4: the statistics of a completed ingestion run always satisfy
`discovered = ingested + updated + skipped + failed`: every discovered file
is counted under exactly one outcome. -/
theorem run_ingest_stats_partition (files : List FileSpec) (st : Store) :
    (run_ingest files st).2.discovered =
      (run_ingest files st).2.ingested + (run_ingest files st).2.updated +
      (run_ingest files st).2.skipped + (run_ingest files st).2.failed := by
  have h := run_files_sum files st { discovered := files.length }
  simp only [run_ingest]
  simp at h
  omega

/-! ## Failure isolation -/

theorem write_document_error_store
    (st : Store) (resolved_path filename sha256 : String) (pages : List String)
    (existing : Option DocumentRow) (now : String) (fault : WriteFault) (e : String)
    (h : (write_document st resolved_path filename sha256 pages existing now fault).2 =
      .error e) :
    (write_document st resolved_path filename sha256 pages existing now fault).1 = st := by
  cases fault with
  | docStep msg => simp [write_document]
  | commitStep msg =>
    simp only [write_document]
    rw [insertPagesFrom_no_fire _ _ _ _ (by intro r _; rfl)]
  | noFault =>
    simp only [write_document] at h
    rw [insertPagesFrom_no_fire _ _ _ _ (by intro r _; rfl)] at h
    simp at h
  | pageStep k msg =>
    by_cases hk : k < pages.length
    · have hmem : ∃ r ∈ pages.enum, r.1 = k := by
        refine ⟨pages.enum.get ⟨k, by simpa using hk⟩, List.get_mem _ _ _, ?_⟩
        simp [List.getElem_enum]
      simp only [write_document]
      rw [insertPagesFrom_fires _ _ _ _ _ hmem]
    · simp only [write_document] at h
      rw [insertPagesFrom_no_fire _ _ _ _ ?_] at h
      · simp at h
      · intro r hr
        have hlt : r.1 < pages.length := List.fst_lt_of_mem_enum hr
        have hne : k ≠ r.1 := by omega
        simp [faultAtPage, hne]

theorem ingest_document_error_store (st : Store) (f : FileSpec) (e : String)
    (h : (ingest_document st f).2 = .error e) : (ingest_document st f).1 = st := by
  simp only [ingest_document] at h ⊢
  cases hr : f.readResult with
  | error e2 => rfl
  | ok sha256 =>
    rw [hr] at h
    dsimp only at h ⊢
    by_cases hskip :
        (Option.any (fun ex => ex.sha256 == sha256) (load_existing_document st f.path)) = true
    · rw [if_pos hskip] at h
      exact absurd h (by simp)
    · rw [if_neg hskip] at h ⊢
      cases hex : extract_pages f.extractResult with
      | error e2 => rfl
      | ok pages =>
        rw [hex] at h
        dsimp only at h ⊢
        refine write_document_error_store st f.path f.filename sha256 pages
          (load_existing_document st f.path) f.now f.writeFault e ?_
        cases hw : (write_document st f.path f.filename sha256 pages
            (load_existing_document st f.path) f.now f.writeFault).2 with
        | ok status => rw [hw] at h; exact absurd h (by simp [Except.map])
        | error e2 =>
          rw [hw] at h
          simp only [Except.map, Except.error.injEq] at h
          rw [h]

theorem run_files_store_indep (files : List FileSpec) :
    ∀ (st : Store) (s1 s2 : IngestStats),
      (run_files st s1 files).1 = (run_files st s2 files).1 := by
  induction files with
  | nil => intro st s1 s2; rfl
  | cons f rest ih => intro st s1 s2; simp only [run_files]; exact ih _ _ _

theorem run_files_append (xs ys : List FileSpec) :
    ∀ (st : Store) (stats : IngestStats),
      run_files st stats (xs ++ ys) =
        run_files (run_files st stats xs).1 (run_files st stats xs).2 ys := by
  induction xs with
  | nil => intro st stats; rfl
  | cons f rest ih =>
    intro st stats
    simp only [List.cons_append, run_files]
    exact ih _ _

/-- C9: a file whose processing raises is counted as exactly one `failed`,
the run continues with the remaining files, and neither the final store nor
any other file's classification differs from the run without that file. -/
theorem run_ingest_failure_isolated
    (st : Store) (pre post : List FileSpec) (f : FileSpec) (e : String)
    (h : (ingest_document (run_ingest pre st).1 f).2 = .error e) :
    (run_ingest (pre ++ f :: post) st).1 = (run_ingest (pre ++ post) st).1 ∧
    (run_ingest (pre ++ f :: post) st).2.failed =
      (run_ingest (pre ++ post) st).2.failed + 1 ∧
    (run_ingest (pre ++ f :: post) st).2.ingested =
      (run_ingest (pre ++ post) st).2.ingested ∧
    (run_ingest (pre ++ f :: post) st).2.updated =
      (run_ingest (pre ++ post) st).2.updated ∧
    (run_ingest (pre ++ f :: post) st).2.skipped =
      (run_ingest (pre ++ post) st).2.skipped := by
  simp only [run_ingest] at h ⊢
  set z : IngestStats := ⟨0, 0, 0, 0, 0⟩ with hz
  -- the store reached after `pre` is the same whatever the initial statistics
  have hS : ∀ s : IngestStats, (run_files st s pre).1 = (run_files st z pre).1 :=
    fun s => run_files_store_indep pre st s z
  have hfail : (ingest_document (run_files st z pre).1 f).2 = .error e := by
    rw [← hS { discovered := pre.length }]; exact h
  have hstore : (ingest_document (run_files st z pre).1 f).1 = (run_files st z pre).1 :=
    ingest_document_error_store _ _ _ hfail
  have expand1 :
      run_files st { discovered := (pre ++ f :: post).length } (pre ++ f :: post) =
        run_files (run_files st z pre).1
          (tally (run_files st { discovered := (pre ++ f :: post).length } pre).2
            (.error e))
          post := by
    rw [run_files_append]
    simp only [run_files]
    rw [hS { discovered := (pre ++ f :: post).length }]
    rw [show (ingest_document (run_files st z pre).1 f) =
        ((run_files st z pre).1, .error e) from
      Prod.ext hstore hfail]
  have expand2 :
      run_files st { discovered := (pre ++ post).length } (pre ++ post) =
        run_files (run_files st z pre).1
          (run_files st { discovered := (pre ++ post).length } pre).2 post := by
    rw [run_files_append]
    rw [hS { discovered := (pre ++ post).length }]
  rw [expand1, expand2]
  constructor
  · exact run_files_store_indep post _ _ _
  · have e1 := run_files_eq post (run_files st z pre).1
      (tally (run_files st { discovered := (pre ++ f :: post).length } pre).2 (.error e))
    have e2 := run_files_eq post (run_files st z pre).1
      (run_files st { discovered := (pre ++ post).length } pre).2
    rw [e1, e2]
    have p1 := run_files_eq pre st { discovered := (pre ++ f :: post).length }
    have p2 := run_files_eq pre st { discovered := (pre ++ post).length }
    rw [p1, p2]
    simp [tally, statsAdd]
    omega

/-! ## Ordering of search results -/

theorem keyLe_trans : ∀ x y z, keyLe x y → keyLe y z → keyLe x z :=
  lexLe_trans (lexLe_trans (lexLe_trans (lexLe_trans
    fun _ _ _ h1 h2 => le_trans h1 h2)))

theorem keyLe_total : ∀ x y, keyLe x y ∨ keyLe y x :=
  lexLe_total (lexLe_total (lexLe_total (lexLe_total fun a b => Nat.le_total a b)))

theorem pageLe_trans (corpus : List SearchDocument) :
    ∀ x y z : Nat × ℚ, pageLe corpus x y → pageLe corpus y z → pageLe corpus x z :=
  fun _ _ _ h1 h2 => keyLe_trans _ _ _ h1 h2

theorem pageLe_total (corpus : List SearchDocument) :
    ∀ x y : Nat × ℚ, pageLe corpus x y ∨ pageLe corpus y x :=
  fun x y => keyLe_total (keyOf corpus x) (keyOf corpus y)

/-- The ranked index list is sorted by the full deterministic key. -/
theorem ranked_indices_sorted (corpus : List SearchDocument) (scores : List ℚ) :
    List.Pairwise (pageLe corpus) (ranked_indices corpus scores) := by
  have h := List.sorted_mergeSort
    (fun a b c hab hbc => decide_eq_true
      (pageLe_trans corpus a b c (of_decide_eq_true hab) (of_decide_eq_true hbc)))
    (fun a b => by
      rcases pageLe_total corpus a b with hab | hba
      · simp [decide_eq_true hab]
      · simp [decide_eq_true hba])
    (scores.enum.filter fun p => decide (0 < p.2))
  exact h.imp fun hab => of_decide_eq_true hab

/-- Ranked order of index pairs yields the observable order of their hits. -/
theorem mkHit_le (corpus : List SearchDocument) (r r' : Nat) (x y : Nat × ℚ)
    (h : pageLe corpus x y) : hitLe (mkHit corpus r x) (mkHit corpus r' y) := by
  simp only [pageLe, keyLe, keyOf, lexLe] at h
  simp only [hitLe, mkHit, lexLe]
  rcases h with h | ⟨h1, h⟩
  · exact Or.inl h
  · refine Or.inr ⟨h1, ?_⟩
    rcases h with h | ⟨h2, h⟩
    · exact Or.inl h
    · refine Or.inr ⟨h2, ?_⟩
      rcases h with h | ⟨h3, h⟩
      · exact Or.inl h
      · refine Or.inr ⟨h3, ?_⟩
        rcases h with h | ⟨h4, _⟩
        · exact le_of_lt h
        · exact le_of_eq h4

/-- C5: a successful `search_pages` returns at most `topK` hits; each hit's
1-based `rank_index` equals its position in the returned order; the hits are
sorted by score descending, then filename, page index and path ascending; and
the underlying ranked index list is totally ordered by the full deterministic
key whose final tiebreak is the original corpus-load order. -/
theorem search_pages_ranked
    (scorer : List (List String) → List String → List ℚ)
    (corpus : List SearchDocument) (query : String) (top_k : Int)
    (hits : List SearchHit)
    (h : search_pages scorer corpus query top_k = .ok hits) :
    hits.length ≤ top_k.toNat ∧
    (∀ i (hi : i < hits.length), (hits.get ⟨i, hi⟩).rank_index = i + 1) ∧
    (∀ i j (hi : i < hits.length) (hj : j < hits.length), i < j →
      hitLe (hits.get ⟨i, hi⟩) (hits.get ⟨j, hj⟩)) ∧
    List.Pairwise (pageLe corpus)
      (ranked_indices corpus
        (scorer (corpus.map SearchDocument.tokens) (tokenize query))) := by
  simp only [search_pages] at h
  split at h
  · exact absurd h (by simp)
  split at h
  · simp only [Except.ok.injEq] at h
    subst h
    exact ⟨by simp, by simp, by simp, ranked_indices_sorted corpus _⟩
  split at h
  · simp only [Except.ok.injEq] at h
    subst h
    exact ⟨by simp, by simp, by simp, ranked_indices_sorted corpus _⟩
  simp only [Except.ok.injEq] at h
  subst h
  refine ⟨?_, ?_, ?_, ranked_indices_sorted corpus _⟩
  · simp only [List.length_map, List.enum_length, List.length_take]
    exact Nat.min_le_left _ _
  · intro i hi
    simp only [List.length_map, List.enum_length] at hi
    simp only [List.get_eq_getElem, List.getElem_map, List.getElem_enum]
    rfl
  · intro i j hi hj hij
    simp only [List.length_map, List.enum_length, List.length_take] at hi hj
    simp only [List.get_eq_getElem, List.getElem_map, List.getElem_enum]
    apply mkHit_le
    have hs : List.Pairwise (pageLe corpus)
        ((ranked_indices corpus
          (scorer (corpus.map SearchDocument.tokens) (tokenize query))).take
            top_k.toNat) :=
      List.Pairwise.sublist (List.take_sublist _ _) (ranked_indices_sorted corpus _)
    exact (List.pairwise_iff_getElem.mp hs) i j (by simpa using hi) (by simpa using hj) hij

/-- C5 witness: a one-page corpus searched with `topK = 1`. -/
theorem search_pages_ranked_witness :
    ([(⟨1, "f", "p", 0, 1, "hello"⟩ : SearchHit)]).length ≤ (1 : Int).toNat :=
  (search_pages_ranked (fun _ _ => [1]) [⟨"f", "p", 0, "hello", ["hello"]⟩] "hello" 1
    [⟨1, "f", "p", 0, 1, "hello"⟩]
    (by simp +decide [search_pages, ranked_indices, mkHit, tokenize, make_snippet,
      List.mergeSort])).1

/-- C7: a query that tokenizes to no tokens returns an empty hit list; every
returned hit has strictly positive score (pages scoring `<= 0` are excluded);
hence if every page scores `<= 0`, the hit list is empty whatever `topK`. -/
theorem search_pages_empty_and_positive :
    (∀ (scorer : List (List String) → List String → List ℚ)
      (corpus : List SearchDocument) (query : String) (top_k : Int),
      0 < top_k → tokenize query = [] →
      search_pages scorer corpus query top_k = .ok []) ∧
    (∀ (scorer : List (List String) → List String → List ℚ)
      (corpus : List SearchDocument) (query : String) (top_k : Int)
      (hits : List SearchHit),
      search_pages scorer corpus query top_k = .ok hits →
      ∀ hit ∈ hits, 0 < hit.score) ∧
    (∀ (scorer : List (List String) → List String → List ℚ)
      (corpus : List SearchDocument) (query : String) (top_k : Int),
      0 < top_k →
      (∀ s ∈ scorer (corpus.map SearchDocument.tokens) (tokenize query), s ≤ 0) →
      search_pages scorer corpus query top_k = .ok []) := by
  refine ⟨?_, ?_, ?_⟩
  · intro scorer corpus query top_k hpos htok
    simp only [search_pages]
    rw [if_neg (by omega)]
    by_cases hc : corpus.isEmpty
    · simp [hc]
    · simp [hc, htok]
  · intro scorer corpus query top_k hits h hit hmem
    simp only [search_pages] at h
    split at h
    · exact absurd h (by simp)
    split at h
    · simp only [Except.ok.injEq] at h; subst h; simp at hmem
    split at h
    · simp only [Except.ok.injEq] at h; subst h; simp at hmem
    simp only [Except.ok.injEq] at h
    subst h
    simp only [List.mem_map] at hmem
    obtain ⟨p, hp, rfl⟩ := hmem
    have hx : p.2 ∈ (ranked_indices corpus
        (scorer (corpus.map SearchDocument.tokens) (tokenize query))).take top_k.toNat :=
      List.snd_mem_of_mem_enum hp
    have hx2 : p.2 ∈ ranked_indices corpus
        (scorer (corpus.map SearchDocument.tokens) (tokenize query)) :=
      (List.take_sublist _ _).mem hx
    have hx3 := List.mem_mergeSort.mp hx2
    have hx4 := List.mem_filter.mp hx3
    have := of_decide_eq_true hx4.2
    exact this
  · intro scorer corpus query top_k hpos hsc
    simp only [search_pages]
    rw [if_neg (by omega)]
    by_cases hc : corpus.isEmpty
    · simp [hc]
    · by_cases ht : (tokenize query).isEmpty
      · simp [hc, ht]
      · have hfil : ((scorer (corpus.map SearchDocument.tokens)
            (tokenize query)).enum.filter fun p => decide (0 < p.2)) = [] := by
          rw [List.filter_eq_nil_iff]
          intro p hp
          have hps := hsc p.2 (List.snd_mem_of_mem_enum hp)
          simp only [decide_eq_true_eq]
          exact not_lt.mpr hps
        simp only [hc, ht, if_false, Bool.false_eq_true, ranked_indices, hfil]
        simp [List.mergeSort]

/-- C7 witness: a query with no alphanumeric characters over a nonempty corpus. -/
theorem search_pages_empty_and_positive_witness :
    search_pages (fun _ _ => [1]) [⟨"f", "p", 0, "hello", ["hello"]⟩] "???" 5 = .ok [] :=
  search_pages_empty_and_positive.1 (fun _ _ => [1]) [⟨"f", "p", 0, "hello", ["hello"]⟩]
    "???" 5 (by omega) (by decide)

/-! ## The snippet contract -/

/-- C8: `make_snippet text maxChars` fails iff `maxChars < 1`; with the
whitespace-collapsed, end-trimmed text: if it fits within `maxChars` it is
returned unchanged, else if `maxChars ≤ 3` the result is exactly `maxChars`
dot characters, else the first `maxChars - 3` characters right-trimmed
followed by `"..."`; in particular `snippet("a"*500, 240)` has length exactly
240 and ends with `"..."`, and `snippet("abcdef", 2) = ".."`. -/
theorem make_snippet_contract :
    (∀ (text : String) (max_chars : Int),
      (make_snippet text max_chars).isOk = true ↔ 1 ≤ max_chars) ∧
    (∀ (text : String) (max_chars : Int), 1 ≤ max_chars →
      (pyStrip (collapseWS text.data)).length ≤ max_chars.toNat →
      make_snippet text max_chars = .ok (String.mk (pyStrip (collapseWS text.data)))) ∧
    (∀ (text : String) (max_chars : Int), 1 ≤ max_chars → max_chars ≤ 3 →
      max_chars.toNat < (pyStrip (collapseWS text.data)).length →
      make_snippet text max_chars = .ok (String.mk (List.replicate max_chars.toNat '.'))) ∧
    (∀ (text : String) (max_chars : Int), 3 < max_chars →
      max_chars.toNat < (pyStrip (collapseWS text.data)).length →
      make_snippet text max_chars =
        .ok (String.mk (pyRStrip ((pyStrip (collapseWS text.data)).take
          (max_chars.toNat - 3)) ++ ['.', '.', '.']))) ∧
    ((make_snippet (String.mk (List.replicate 500 'a')) 240 =
        .ok (String.mk (List.replicate 237 'a' ++ ['.', '.', '.']))) ∧
      (String.mk (List.replicate 237 'a' ++ ['.', '.', '.'])).length = 240) ∧
    make_snippet "abcdef" 2 = .ok ".." := by
  refine ⟨?_, ?_, ?_, ?_,
    ⟨by set_option maxRecDepth 10000 in decide,
     by set_option maxRecDepth 10000 in decide⟩, by decide⟩
  · intro text mc
    by_cases h1 : mc < 1
    · simp only [make_snippet, if_pos h1, Except.isOk, Except.toBool,
        Bool.false_eq_true, false_iff]
      omega
    · simp only [make_snippet, if_neg h1]
      by_cases h2 : (pyStrip (collapseWS text.data)).length ≤ mc.toNat
      · simp only [if_pos h2, Except.isOk, Except.toBool]
        exact ⟨fun _ => by omega, fun _ => trivial⟩
      · simp only [if_neg h2]
        by_cases h3 : mc ≤ 3
        · simp only [if_pos h3, Except.isOk, Except.toBool]
          exact ⟨fun _ => by omega, fun _ => trivial⟩
        · simp only [if_neg h3, Except.isOk, Except.toBool]
          exact ⟨fun _ => by omega, fun _ => trivial⟩
  · intro text mc h1 h2
    simp only [make_snippet, if_neg (by omega : ¬mc < 1), if_pos h2]
  · intro text mc h1 h3 h2
    simp only [make_snippet, if_neg (by omega : ¬mc < 1),
      if_neg (by omega : ¬(pyStrip (collapseWS text.data)).length ≤ mc.toNat),
      if_pos h3]
  · intro text mc h3 h2
    simp only [make_snippet, if_neg (by omega : ¬mc < 1),
      if_neg (by omega : ¬(pyStrip (collapseWS text.data)).length ≤ mc.toNat),
      if_neg (by omega : ¬mc ≤ 3)]

/-- C8 witness: a short text is returned unchanged. -/
theorem make_snippet_contract_witness : make_snippet "short" 240 = .ok "short" :=
  (make_snippet_contract.2.1 "short" 240 (by omega) (by decide)).trans (by decide)

/-! ## The concrete normalization examples -/

/-- C6 counterexample: the spec's first example is wrong on the code.
`"a\r\nb\r\rc"` normalizes to `"a\nb\n\nc"` — the two `\r`s become two
newlines, which the three-or-more rule does not collapse — not `"a\nb\nc"`. -/
theorem normalize_text_example_counterexample :
    normalize_text "a\r\nb\r\rc" = "a\nb\n\nc" ∧
    normalize_text "a\r\nb\r\rc" ≠ "a\nb\nc" := by
  refine ⟨by decide, by decide⟩

/-- C6 amended: line-ending conversion, space/tab collapsing, newline
collapsing and stripping give `normalize("a\r\nb\r\rc") = "a\nb\n\nc"` and
`normalize("x   y\n\n\n\nz") = "x y\n\nz"`. -/
theorem normalize_text_examples :
    normalize_text "a\r\nb\r\rc" = "a\nb\n\nc" ∧
    normalize_text "x   y\n\n\n\nz" = "x y\n\nz" := by
  refine ⟨by decide, by decide⟩

/-! ## Idempotence of the normalizer

A normalized string contains no carriage return, no tab, no two adjacent
space/tab characters, no three adjacent newlines, and no whitespace at either
end; each stage of `normalize_text` is the identity on such strings. -/

/-- Two adjacent space/tab characters occur somewhere in the list. -/
def hasDoubleST : List Char → Bool
  | a :: b :: rest => (isST a && isST b) || hasDoubleST (b :: rest)
  | _ => false

/-- Three adjacent newlines occur somewhere in the list. -/
def hasTripleNL : List Char → Bool
  | a :: b :: c :: rest =>
    (decide (a = '\n') && decide (b = '\n') && decide (c = '\n')) ||
      hasTripleNL (b :: c :: rest)
  | _ => false

theorem hasDoubleST_nil : hasDoubleST [] = false := by rw [hasDoubleST.eq_def]

theorem hasDoubleST_one (a : Char) : hasDoubleST [a] = false := by
  rw [hasDoubleST.eq_def]

theorem hasDoubleST_cons2 (a b : Char) (rest : List Char) :
    hasDoubleST (a :: b :: rest) = ((isST a && isST b) || hasDoubleST (b :: rest)) := by
  rw [hasDoubleST.eq_def]

theorem hasTripleNL_nil : hasTripleNL [] = false := by rw [hasTripleNL.eq_def]

theorem hasTripleNL_one (a : Char) : hasTripleNL [a] = false := by
  rw [hasTripleNL.eq_def]

theorem hasTripleNL_two (a b : Char) : hasTripleNL [a, b] = false := by
  rw [hasTripleNL.eq_def]

theorem hasTripleNL_cons3 (a b c : Char) (rest : List Char) :
    hasTripleNL (a :: b :: c :: rest) =
      ((decide (a = '\n') && decide (b = '\n') && decide (c = '\n')) ||
        hasTripleNL (b :: c :: rest)) := by
  rw [hasTripleNL.eq_def]

theorem collapseNL_nil : collapseNL [] = [] := by rw [collapseNL.eq_def]

theorem collapseNL_one (a : Char) : collapseNL [a] = [a] := by rw [collapseNL.eq_def]

theorem collapseNL_two (a b : Char) : collapseNL [a, b] = [a, b] := by
  rw [collapseNL.eq_def]

theorem collapseNL_cons3 (a b c : Char) (rest : List Char) :
    collapseNL (a :: b :: c :: rest) =
      if a = '\n' ∧ b = '\n' ∧ c = '\n' then collapseNL (b :: c :: rest)
      else a :: collapseNL (b :: c :: rest) := by
  rw [collapseNL.eq_def]

theorem replaceCRLF_nil : replaceCRLF [] = [] := by rw [replaceCRLF.eq_def]

theorem replaceCRLF_one (a : Char) : replaceCRLF [a] = [a] := by
  rw [replaceCRLF.eq_def]

theorem replaceCRLF_cons2 (a b : Char) (rest : List Char) :
    replaceCRLF (a :: b :: rest) =
      if a = '\r' ∧ b = '\n' then '\n' :: replaceCRLF rest
      else a :: replaceCRLF (b :: rest) := by
  rw [replaceCRLF.eq_def]

/-- `collapseNL` keeps the first character. -/
theorem collapseNL_head (l : List Char) : (collapseNL l).head? = l.head? := by
  induction l using collapseNL.induct with
  | case1 a b c rest h ih =>
    rw [collapseNL_cons3, if_pos h, ih]
    simp [h.1, h.2.1]
  | case2 a b c rest h ih => rw [collapseNL_cons3, if_neg h]; rfl
  | case3 l h =>
    rcases l with _ | ⟨a, _ | ⟨b, _ | ⟨c, rest⟩⟩⟩
    · rfl
    · rw [collapseNL_one]
    · rw [collapseNL_two]
    · exact absurd rfl (h a b c rest)

/-- `collapseST` turns a nonempty list into a list headed by the collapsed
form of its first character. -/
theorem collapseST_head (b : Char) (rest : List Char) :
    (collapseST (b :: rest)).head? = some (if isST b then ' ' else b) := by
  induction rest generalizing b with
  | nil => simp only [collapseST]; split <;> rfl
  | cons c rest ih =>
    simp only [collapseST]
    by_cases hbc : isST b && isST c
    · rw [if_pos hbc, ih c]
      simp only [Bool.and_eq_true] at hbc
      simp [hbc.1, hbc.2]
    · rw [if_neg hbc]
      rfl

/-! ### Each stage fixes already-normalized text -/

theorem replaceCRLF_of_no_cr (l : List Char) (h : '\r' ∉ l) : replaceCRLF l = l := by
  induction l using replaceCRLF.induct with
  | case1 a b rest hab ih => exact absurd (hab.1 ▸ List.mem_cons_self _ _) h
  | case2 a b rest hab ih =>
    rw [replaceCRLF_cons2, if_neg hab, ih (fun hc => h (List.mem_cons_of_mem _ hc))]
  | case3 l hl =>
    rcases l with _ | ⟨a, _ | ⟨b, rest⟩⟩
    · rfl
    · rw [replaceCRLF_one]
    · exact absurd rfl (hl a b rest)

theorem replaceCR_of_no_cr (l : List Char) (h : '\r' ∉ l) : replaceCR l = l := by
  induction l with
  | nil => rfl
  | cons a rest ih =>
    have ha : a ≠ '\r' := fun hc => h (hc ▸ List.mem_cons_self _ _)
    simp only [replaceCR, List.map_cons, if_neg ha]
    rw [show List.map (fun c => if c = '\r' then '\n' else c) rest = replaceCR rest from rfl,
      ih fun hc => h (List.mem_cons_of_mem _ hc)]

theorem collapseST_of_clean (l : List Char) (ht : '\t' ∉ l)
    (hd : hasDoubleST l = false) : collapseST l = l := by
  induction l using collapseST.induct with
  | case1 a b rest hab ih =>
    rw [hasDoubleST_cons2] at hd
    simp [hab] at hd
  | case2 a b rest hab ih =>
    simp only [collapseST, if_neg hab]
    have htb : '\t' ∉ b :: rest := fun hc => ht (List.mem_cons_of_mem _ hc)
    have hdb : hasDoubleST (b :: rest) = false := by
      rw [hasDoubleST_cons2] at hd
      exact (Bool.or_eq_false_iff.mp hd).2
    rw [ih htb hdb]
    by_cases hsa : isST a
    · have : a = ' ' := by
        have : a ≠ '\t' := fun hc => ht (hc ▸ List.mem_cons_self _ _)
        simp only [isST, Bool.or_eq_true, beq_iff_eq] at hsa
        rcases hsa with h1 | h1
        · exact h1
        · exact absurd h1 this
      simp [hsa, this]
    · simp [hsa]
  | case3 a hsa =>
    have : a = ' ' := by
      have hne : a ≠ '\t' := fun hc => ht (hc ▸ List.mem_cons_self _ _)
      simp only [isST, Bool.or_eq_true, beq_iff_eq] at hsa
      rcases hsa with h1 | h1
      · exact h1
      · exact absurd h1 hne
    simp [collapseST, this]
  | case4 a hsa => simp [collapseST, hsa]
  | case5 => rfl

theorem collapseNL_of_clean (l : List Char) (h : hasTripleNL l = false) :
    collapseNL l = l := by
  induction l using collapseNL.induct with
  | case1 a b c rest habc ih =>
    rw [hasTripleNL_cons3] at h
    simp [habc.1, habc.2.1, habc.2.2] at h
  | case2 a b c rest habc ih =>
    rw [collapseNL_cons3, if_neg habc, ih]
    rw [hasTripleNL_cons3] at h
    exact (Bool.or_eq_false_iff.mp h).2
  | case3 l hl =>
    rcases l with _ | ⟨a, _ | ⟨b, _ | ⟨c, rest⟩⟩⟩
    · rfl
    · rw [collapseNL_one]
    · rw [collapseNL_two]
    · exact absurd rfl (hl a b c rest)

theorem head?_dropWhile (p : Char → Bool) (l : List Char) :
    ∀ c, (l.dropWhile p).head? = some c → p c = false := by
  induction l with
  | nil => intro c h; simp at h
  | cons a rest ih =>
    intro c h
    by_cases hp : p a
    · rw [List.dropWhile_cons_of_pos hp] at h
      exact ih c h
    · rw [List.dropWhile_cons_of_neg hp] at h
      simp only [List.head?_cons, Option.some.injEq] at h
      subst h
      simpa using hp

theorem pyRStrip_append (l : List Char) :
    pyRStrip l ++ (l.reverse.takeWhile pyIsSpace).reverse = l := by
  simp only [pyRStrip]
  rw [← List.reverse_append, List.takeWhile_append_dropWhile, List.reverse_reverse]

theorem pyRStrip_of_last (l : List Char)
    (hl : ∀ c, l.getLast? = some c → pyIsSpace c = false) : pyRStrip l = l := by
  simp only [pyRStrip]
  cases hr : l.reverse with
  | nil => simpa using congrArg List.reverse hr
  | cons b w =>
    have hb : pyIsSpace b = false := by
      apply hl
      rw [← List.head?_reverse, hr]
      rfl
    rw [List.dropWhile_cons_of_neg (by simp [hb]), ← hr, List.reverse_reverse]

theorem pyStrip_of_ends (l : List Char)
    (hh : ∀ c, l.head? = some c → pyIsSpace c = false)
    (hl : ∀ c, l.getLast? = some c → pyIsSpace c = false) : pyStrip l = l := by
  have h1 : pyLStrip l = l := by
    cases l with
    | nil => rfl
    | cons a rest =>
      simp only [pyLStrip]
      exact List.dropWhile_cons_of_neg (by simp [hh a rfl])
  simp only [pyStrip, h1]
  exact pyRStrip_of_last l hl

/-! ### Characters of each stage's output -/

theorem not_cr_replaceCR (l : List Char) : '\r' ∉ replaceCR l := by
  intro hc
  simp only [replaceCR, List.mem_map] at hc
  obtain ⟨a, _, ha⟩ := hc
  by_cases h : a = '\r' <;> simp [h] at ha

theorem mem_collapseST (l : List Char) : ∀ c ∈ collapseST l, c = ' ' ∨ c ∈ l := by
  induction l using collapseST.induct with
  | case1 a b rest hab ih =>
    intro c hc
    rw [collapseST] at hc
    rw [if_pos hab] at hc
    rcases ih c hc with h | h
    · exact Or.inl h
    · exact Or.inr (List.mem_cons_of_mem _ h)
  | case2 a b rest hab ih =>
    intro c hc
    rw [collapseST, if_neg hab] at hc
    rcases List.mem_cons.mp hc with h | h
    · by_cases hsa : isST a
      · rw [if_pos hsa] at h; exact Or.inl h
      · rw [if_neg hsa] at h; exact Or.inr (h ▸ List.mem_cons_self _ _)
    · rcases ih c h with h2 | h2
      · exact Or.inl h2
      · exact Or.inr (List.mem_cons_of_mem _ h2)
  | case3 a hsa =>
    intro c hc
    simp only [collapseST, if_pos hsa, List.mem_singleton] at hc
    exact Or.inl hc
  | case4 a hsa =>
    intro c hc
    simp only [collapseST, if_neg hsa, List.mem_singleton] at hc
    exact Or.inr (hc ▸ List.mem_cons_self _ _)
  | case5 => intro c hc; simp [collapseST] at hc

theorem mem_collapseNL (l : List Char) : ∀ c ∈ collapseNL l, c ∈ l := by
  induction l using collapseNL.induct with
  | case1 a b c rest habc ih =>
    intro x hx
    rw [collapseNL_cons3, if_pos habc] at hx
    exact List.mem_cons_of_mem _ (ih x hx)
  | case2 a b c rest habc ih =>
    intro x hx
    rw [collapseNL_cons3, if_neg habc] at hx
    rcases List.mem_cons.mp hx with h | h
    · exact h ▸ List.mem_cons_self _ _
    · exact List.mem_cons_of_mem _ (ih x h)
  | case3 l hl =>
    rcases l with _ | ⟨a, _ | ⟨b, _ | ⟨c, rest⟩⟩⟩
    · intro x hx; rw [collapseNL_nil] at hx; exact hx
    · intro x hx; rwa [collapseNL_one] at hx
    · intro x hx; rwa [collapseNL_two] at hx
    · exact absurd rfl (hl a b c rest)

theorem mem_pyStrip (l : List Char) : ∀ c ∈ pyStrip l, c ∈ l := by
  intro c hc
  simp only [pyStrip, pyRStrip, pyLStrip] at hc
  rw [List.mem_reverse] at hc
  have h1 := (List.dropWhile_sublist pyIsSpace).mem hc
  rw [List.mem_reverse] at h1
  exact (List.dropWhile_sublist pyIsSpace).mem h1

/-- The space/tab class is unchanged by the space-collapsing substitution. -/
theorem isST_emit (a : Char) : isST (if isST a then ' ' else a) = isST a := by
  by_cases h : isST a
  · rw [if_pos h, h]; decide
  · rw [if_neg h]

theorem not_tab_collapseST (l : List Char) : '\t' ∉ collapseST l := by
  induction l using collapseST.induct with
  | case1 a b rest hab ih => rw [collapseST, if_pos hab]; exact ih
  | case2 a b rest hab ih =>
    rw [collapseST, if_neg hab]
    intro hc
    rcases List.mem_cons.mp hc with h | h
    · by_cases hsa : isST a
      · rw [if_pos hsa] at h
        exact absurd h (by decide)
      · rw [if_neg hsa] at h
        rw [← h] at hsa
        exact hsa (by decide)
    · exact ih h
  | case3 a hsa => simp [collapseST, hsa]
  | case4 a hsa =>
    simp only [collapseST, if_neg hsa, List.mem_singleton]
    intro h
    rw [← h] at hsa
    exact hsa (by decide)
  | case5 => simp [collapseST]

theorem hasDoubleST_tail (a : Char) (l : List Char)
    (h : hasDoubleST (a :: l) = false) : hasDoubleST l = false := by
  cases l with
  | nil => exact hasDoubleST_nil
  | cons b r => rw [hasDoubleST_cons2] at h; exact (Bool.or_eq_false_iff.mp h).2

theorem hasTripleNL_tail (a : Char) (l : List Char)
    (h : hasTripleNL (a :: l) = false) : hasTripleNL l = false := by
  cases l with
  | nil => exact hasTripleNL_nil
  | cons b r =>
    cases r with
    | nil => exact hasTripleNL_one b
    | cons c r2 => rw [hasTripleNL_cons3] at h; exact (Bool.or_eq_false_iff.mp h).2

/-- A nonempty `collapseST` output decomposes as its known head and a tail. -/
theorem collapseST_cons_decomp (b : Char) (rest : List Char) :
    ∃ w, collapseST (b :: rest) = (if isST b then ' ' else b) :: w := by
  have hh := collapseST_head b rest
  cases hc : collapseST (b :: rest) with
  | nil => rw [hc] at hh; exact absurd hh (by simp)
  | cons x w =>
    rw [hc] at hh
    simp only [List.head?_cons, Option.some.injEq] at hh
    exact ⟨w, by rw [hh]⟩

/-- A nonempty `collapseNL` output decomposes as its original head and a tail. -/
theorem collapseNL_cons_decomp (b : Char) (rest : List Char) :
    ∃ w, collapseNL (b :: rest) = b :: w := by
  have hh := collapseNL_head (b :: rest)
  cases hc : collapseNL (b :: rest) with
  | nil => rw [hc] at hh; exact absurd hh (by simp)
  | cons x w =>
    rw [hc] at hh
    simp only [List.head?_cons, Option.some.injEq] at hh
    exact ⟨w, by rw [← hh]⟩

theorem hasDoubleST_collapseST (l : List Char) :
    hasDoubleST (collapseST l) = false := by
  induction l using collapseST.induct with
  | case1 a b rest hab ih => rw [collapseST, if_pos hab]; exact ih
  | case2 a b rest hab ih =>
    rw [collapseST, if_neg hab]
    obtain ⟨w, hw⟩ := collapseST_cons_decomp b rest
    rw [hw, hasDoubleST_cons2]
    apply Bool.or_eq_false_iff.mpr
    constructor
    · rw [isST_emit, isST_emit]
      simpa using hab
    · rw [← hw]; exact ih
  | case3 a hsa => rw [collapseST, if_pos hsa]; exact hasDoubleST_one _
  | case4 a hsa => rw [collapseST, if_neg hsa]; exact hasDoubleST_one _
  | case5 => exact hasDoubleST_nil

theorem hasDoubleST_collapseNL (l : List Char) (h : hasDoubleST l = false) :
    hasDoubleST (collapseNL l) = false := by
  induction l using collapseNL.induct with
  | case1 a b c rest habc ih =>
    rw [collapseNL_cons3, if_pos habc]
    exact ih (hasDoubleST_tail _ _ h)
  | case2 a b c rest habc ih =>
    rw [collapseNL_cons3, if_neg habc]
    obtain ⟨w, hw⟩ := collapseNL_cons_decomp b (c :: rest)
    rw [hw, hasDoubleST_cons2]
    apply Bool.or_eq_false_iff.mpr
    constructor
    · rw [hasDoubleST_cons2] at h
      exact (Bool.or_eq_false_iff.mp h).1
    · rw [← hw]; exact ih (hasDoubleST_tail _ _ h)
  | case3 l hl =>
    rcases l with _ | ⟨a, _ | ⟨b, _ | ⟨c, rest⟩⟩⟩
    · rw [collapseNL_nil]; exact hasDoubleST_nil
    · rw [collapseNL_one]; exact h
    · rw [collapseNL_two]; exact h
    · exact absurd rfl (hl a b c rest)

/-- When its second character is not a newline, `collapseNL` keeps the first
two characters. -/
theorem collapseNL_second (b c : Char) (rest : List Char) (hc : c ≠ '\n') :
    ∃ w, collapseNL (b :: c :: rest) = b :: c :: w := by
  cases rest with
  | nil => exact ⟨[], collapseNL_two b c⟩
  | cons r rest2 =>
    rw [collapseNL_cons3, if_neg (by rintro ⟨h1, h2, h3⟩; exact hc h2)]
    obtain ⟨w, hw⟩ := collapseNL_cons_decomp c (r :: rest2)
    exact ⟨w, by rw [hw]⟩

theorem hasTripleNL_collapseNL (l : List Char) :
    hasTripleNL (collapseNL l) = false := by
  induction l using collapseNL.induct with
  | case1 a b c rest habc ih => rw [collapseNL_cons3, if_pos habc]; exact ih
  | case2 a b c rest habc ih =>
    rw [collapseNL_cons3, if_neg habc]
    obtain ⟨w, hw⟩ := collapseNL_cons_decomp b (c :: rest)
    cases w with
    | nil => rw [hw]; exact hasTripleNL_two a b
    | cons d w2 =>
      rw [hw, hasTripleNL_cons3]
      apply Bool.or_eq_false_iff.mpr
      refine ⟨?_, by rw [← hw]; exact ih⟩
      by_cases hab : a = '\n' ∧ b = '\n'
      · have hcn : c ≠ '\n' := fun hcc => habc ⟨hab.1, hab.2, hcc⟩
        obtain ⟨w3, hw3⟩ := collapseNL_second b c rest hcn
        have hdc : c = d := by
          have h5 := hw3.symm.trans hw
          simp only [List.cons.injEq, true_and] at h5
          exact h5.1
        rw [← hdc]
        simp [hcn]
      · by_cases ha : a = '\n'
        · have hb : b ≠ '\n' := fun hbb => hab ⟨ha, hbb⟩
          simp [hb]
        · simp [ha]
  | case3 l hl =>
    rcases l with _ | ⟨a, _ | ⟨b, _ | ⟨c, rest⟩⟩⟩
    · rw [collapseNL_nil]; exact hasTripleNL_nil
    · rw [collapseNL_one]; exact hasTripleNL_one a
    · rw [collapseNL_two]; exact hasTripleNL_two a b
    · exact absurd rfl (hl a b c rest)

/-! ### Stability under stripping -/

theorem hasDoubleST_dropWhile (p : Char → Bool) (l : List Char)
    (h : hasDoubleST l = false) : hasDoubleST (l.dropWhile p) = false := by
  induction l with
  | nil => exact h
  | cons a rest ih =>
    by_cases hp : p a
    · rw [List.dropWhile_cons_of_pos hp]
      exact ih (hasDoubleST_tail _ _ h)
    · rw [List.dropWhile_cons_of_neg hp]
      exact h

theorem hasTripleNL_dropWhile (p : Char → Bool) (l : List Char)
    (h : hasTripleNL l = false) : hasTripleNL (l.dropWhile p) = false := by
  induction l with
  | nil => exact h
  | cons a rest ih =>
    by_cases hp : p a
    · rw [List.dropWhile_cons_of_pos hp]
      exact ih (hasTripleNL_tail _ _ h)
    · rw [List.dropWhile_cons_of_neg hp]
      exact h

theorem hasDoubleST_append_left (xs t : List Char)
    (h : hasDoubleST (xs ++ t) = false) : hasDoubleST xs = false := by
  induction xs with
  | nil => exact hasDoubleST_nil
  | cons a rest ih =>
    cases rest with
    | nil => exact hasDoubleST_one a
    | cons b r =>
      have h2 : ((isST a && isST b) || hasDoubleST (b :: (r ++ t))) = false := by
        rw [← hasDoubleST_cons2]
        simpa using h
      rw [hasDoubleST_cons2]
      apply Bool.or_eq_false_iff.mpr
      refine ⟨(Bool.or_eq_false_iff.mp h2).1, ih ?_⟩
      simpa using (Bool.or_eq_false_iff.mp h2).2

theorem hasTripleNL_append_left (xs t : List Char)
    (h : hasTripleNL (xs ++ t) = false) : hasTripleNL xs = false := by
  induction xs with
  | nil => exact hasTripleNL_nil
  | cons a rest ih =>
    cases rest with
    | nil => exact hasTripleNL_one a
    | cons b r =>
      cases r with
      | nil => exact hasTripleNL_two a b
      | cons c r2 =>
        have h2 : ((decide (a = '\n') && decide (b = '\n') && decide (c = '\n')) ||
            hasTripleNL (b :: c :: (r2 ++ t))) = false := by
          rw [← hasTripleNL_cons3]
          simpa using h
        rw [hasTripleNL_cons3]
        apply Bool.or_eq_false_iff.mpr
        refine ⟨(Bool.or_eq_false_iff.mp h2).1, ih ?_⟩
        simpa using (Bool.or_eq_false_iff.mp h2).2

theorem hasDoubleST_pyStrip (l : List Char) (h : hasDoubleST l = false) :
    hasDoubleST (pyStrip l) = false := by
  have h1 : hasDoubleST (pyLStrip l) = false := hasDoubleST_dropWhile _ _ h
  rw [← pyRStrip_append (pyLStrip l)] at h1
  exact hasDoubleST_append_left _ _ h1

theorem hasTripleNL_pyStrip (l : List Char) (h : hasTripleNL l = false) :
    hasTripleNL (pyStrip l) = false := by
  have h1 : hasTripleNL (pyLStrip l) = false := hasTripleNL_dropWhile _ _ h
  rw [← pyRStrip_append (pyLStrip l)] at h1
  exact hasTripleNL_append_left _ _ h1

theorem pyStrip_head (l : List Char) :
    ∀ c, (pyStrip l).head? = some c → pyIsSpace c = false := by
  intro c hc
  simp only [pyStrip] at hc
  have hap := pyRStrip_append (pyLStrip l)
  cases hr : pyRStrip (pyLStrip l) with
  | nil => rw [hr] at hc; exact absurd hc (by simp)
  | cons x w =>
    rw [hr] at hc hap
    have hx : (pyLStrip l).head? = some x := by rw [← hap]; rfl
    simp only [List.head?_cons, Option.some.injEq] at hc
    subst hc
    exact head?_dropWhile pyIsSpace l x hx

theorem pyStrip_last (l : List Char) :
    ∀ c, (pyStrip l).getLast? = some c → pyIsSpace c = false := by
  intro c hc
  simp only [pyStrip, pyRStrip] at hc
  rw [List.getLast?_reverse] at hc
  exact head?_dropWhile pyIsSpace _ c hc

/-- C10: the text normalizer is idempotent — normalized text is a fixed point
of `normalize_text`, so re-normalizing stored page text never changes it. -/
theorem normalize_text_idempotent (s : String) :
    normalize_text (normalize_text s) = normalize_text s := by
  unfold normalize_text
  set v := collapseNL (collapseST (replaceCR (replaceCRLF s.data))) with hv
  set u := pyStrip v with hu
  have hdata : (String.mk u).data = u := rfl
  rw [hdata]
  have hcr : '\r' ∉ u := by
    intro hmem
    have h1 := mem_pyStrip v '\r' hmem
    rw [hv] at h1
    have h2 := mem_collapseNL _ '\r' h1
    rcases mem_collapseST _ '\r' h2 with h3 | h3
    · exact absurd h3 (by decide)
    · exact not_cr_replaceCR _ h3
  have htab : '\t' ∉ u := by
    intro hmem
    have h1 := mem_pyStrip v '\t' hmem
    rw [hv] at h1
    have h2 := mem_collapseNL _ '\t' h1
    exact not_tab_collapseST _ h2
  have hds : hasDoubleST u = false := by
    rw [hu, hv]
    exact hasDoubleST_pyStrip _ (hasDoubleST_collapseNL _ (hasDoubleST_collapseST _))
  have htn : hasTripleNL u = false := by
    rw [hu, hv]
    exact hasTripleNL_pyStrip _ (hasTripleNL_collapseNL _)
  have hh : ∀ c, u.head? = some c → pyIsSpace c = false := by
    rw [hu]; exact pyStrip_head v
  have hl : ∀ c, u.getLast? = some c → pyIsSpace c = false := by
    rw [hu]; exact pyStrip_last v
  rw [replaceCRLF_of_no_cr u hcr, replaceCR_of_no_cr u hcr,
    collapseST_of_clean u htab hds, collapseNL_of_clean u htn,
    pyStrip_of_ends u hh hl]

/-- C9 witness: one unreadable file between two good runs of files. -/
theorem run_ingest_failure_isolated_witness :
    (run_ingest ([] ++ ⟨"/bad.pdf", "bad.pdf", .error "unreadable", .ok [], .noFault, "t"⟩ ::
        [⟨"/a.pdf", "a.pdf", .ok "d0", .ok ["p"], .noFault, "t"⟩]) ⟨[], [], 0⟩).2.failed =
      (run_ingest ([] ++ [⟨"/a.pdf", "a.pdf", .ok "d0", .ok ["p"], .noFault, "t"⟩])
        ⟨[], [], 0⟩).2.failed + 1 :=
  (run_ingest_failure_isolated ⟨[], [], 0⟩ []
    [⟨"/a.pdf", "a.pdf", .ok "d0", .ok ["p"], .noFault, "t"⟩]
    ⟨"/bad.pdf", "bad.pdf", .error "unreadable", .ok [], .noFault, "t"⟩
    "unreadable" rfl).2.1

end Ccsds
